import Mathlib

/-!
# Verification of a dependency-scanning tool

Shallow embedding of `src/index.js`: a batch pipeline that scans a directory
tree for projects (directories directly containing `package.json`), aggregates
each project's `dependencies` / `devDependencies` into two name→version maps
keeping the highest version per name, and generates a report object.

Modelling choices:

* JavaScript numbers produced by `Number(string)` are modelled exactly, as
  `WithBot (WithTop ℚ)` (`⊥` = `-Infinity`, `⊤` = `Infinity`, finite values as
  rationals; IEEE-754 rounding is abstracted away).  `NaN` is modelled as
  `Option.none` at the parse level; the code replaces `NaN` (and missing
  components) by `0` via `v1Parts[i] || 0` before any comparison, so `NaN`
  never reaches a comparison.
* The filesystem is modelled as an inductive tree.  `readdirSync` failure on a
  directory is modelled by an `Option String` error payload on the directory
  node.  Paths are lists of segments, rendered with a `/` separator.
* Manifest reading/parsing (`readFileSync` + `JSON.parse` + field access) is
  modelled by an `Except String Manifest` outcome supplied per project.
* JavaScript `Map` is modelled as an insertion-ordered association list:
  `set` of an existing key updates in place, `set` of a new key appends.
-/

namespace VersionsScan

/-! ## JavaScript `Number(string)` coercion model -/

/-- Extended rationals standing for non-`NaN` JavaScript numbers. -/
abbrev J := WithBot (WithTop ℚ)

/-- A finite JavaScript number. -/
def finJ (q : ℚ) : J := ((q : WithTop ℚ) : J)

/-- JavaScript `Infinity`. -/
def topJ : J := ((⊤ : WithTop ℚ) : J)

/-- JavaScript `-Infinity`. -/
def botJ : J := ⊥

/-- Characters trimmed by `Number(string)` (ECMAScript StrWhiteSpace:
whitespace and line terminators; the common code points are modelled). -/
def isWSChar (c : Char) : Bool :=
  c = ' ' || c = '\t' || c = '\n' || c = '\r' || c = '\x0b' || c = '\x0c' ||
  c = ' ' || c = '﻿' || c = ' ' || c = ' '

/-- Trim leading and trailing whitespace. -/
def trimWS (l : List Char) : List Char :=
  ((l.dropWhile isWSChar).reverse.dropWhile isWSChar).reverse

/-- Value of a digit character in the given base, if valid. -/
def digitVal (base : ℕ) (c : Char) : Option ℕ :=
  let v : Option ℕ :=
    if '0' ≤ c ∧ c ≤ '9' then some (c.toNat - '0'.toNat)
    else if 'a' ≤ c ∧ c ≤ 'f' then some (c.toNat - 'a'.toNat + 10)
    else if 'A' ≤ c ∧ c ≤ 'F' then some (c.toNat - 'A'.toNat + 10)
    else none
  match v with
  | some d => if d < base then some d else none
  | none => none

/-- Accumulate the value of a digit string in the given base. -/
def parseNatAux (base : ℕ) (acc : ℕ) : List Char → Option ℕ
  | [] => some acc
  | c :: rest =>
    match digitVal base c with
    | some d => parseNatAux base (acc * base + d) rest
    | none => none

/-- Parse a non-empty digit string in the given base. -/
def parseNatBase (base : ℕ) (l : List Char) : Option ℕ :=
  match l with
  | [] => none
  | _ => parseNatAux base 0 l

/-- Are all characters decimal digits? -/
def allDigits (l : List Char) : Bool := l.all (fun c => (digitVal 10 c).isSome)

/-- Decimal value of a digit string (digits assumed valid). -/
def digitsVal (l : List Char) : ℕ :=
  l.foldl (fun a c => a * 10 + ((digitVal 10 c).getD 0)) 0

/-- Split at the first character satisfying `p`; `none` if absent. -/
def splitFirst (p : Char → Bool) : List Char → List Char × Option (List Char)
  | [] => ([], none)
  | c :: rest =>
    if p c then ([], some rest)
    else
      let r := splitFirst p rest
      (c :: r.1, r.2)

/-- Parse the mantissa of a decimal literal: `Digits`, `Digits . Digits?`, or
`. Digits`. -/
def parseMantissa (l : List Char) : Option ℚ :=
  match splitFirst (fun c => c = '.') l with
  | (ip, none) => if ip ≠ [] ∧ allDigits ip then some (digitsVal ip) else none
  | (ip, some fp) =>
    if (ip ≠ [] ∨ fp ≠ []) ∧ allDigits ip ∧ allDigits fp then
      some ((digitsVal ip : ℚ) + (digitsVal fp : ℚ) / (10 : ℚ) ^ fp.length)
    else none

/-- Parse an exponent part: optional sign then digits. -/
def parseExpPart (l : List Char) : Option ℤ :=
  match l with
  | '+' :: rest => if rest ≠ [] ∧ allDigits rest then some (digitsVal rest : ℤ) else none
  | '-' :: rest => if rest ≠ [] ∧ allDigits rest then some (-(digitsVal rest : ℤ)) else none
  | _ => if l ≠ [] ∧ allDigits l then some (digitsVal l : ℤ) else none

/-- `10 ^ e` for an integer exponent. -/
def qpow10 : ℤ → ℚ
  | .ofNat n => (10 : ℚ) ^ n
  | .negSucc n => ((10 : ℚ) ^ (n + 1))⁻¹

/-- Parse an unsigned decimal literal with optional exponent. -/
def parseUnsignedDec (l : List Char) : Option ℚ :=
  match splitFirst (fun c => c = 'e' || c = 'E') l with
  | (m, none) => parseMantissa m
  | (m, some ex) =>
    match parseMantissa m, parseExpPart ex with
    | some q, some e => some (q * qpow10 e)
    | _, _ => none

/-- Parse an optionally signed decimal literal or `Infinity`. -/
def parseSignedDec : List Char → Option J
  | '+' :: rest => parseUnsignedInf rest false
  | '-' :: rest => parseUnsignedInf rest true
  | l => parseUnsignedInf l false
where
  parseUnsignedInf (l : List Char) (neg : Bool) : Option J :=
    if l = ['I', 'n', 'f', 'i', 'n', 'i', 't', 'y'] then
      some (if neg then botJ else topJ)
    else (parseUnsignedDec l).map (fun q => finJ (if neg then -q else q))

/-- `Number(string)` on a trimmed character list: empty → `0`, `0x`/`0o`/`0b`
literals (no sign allowed), otherwise signed decimal / `Infinity`; anything
else is `NaN` (`none`). -/
def parseStrNum : List Char → Option J
  | [] => some (finJ 0)
  | '0' :: c :: rest =>
    if c = 'x' ∨ c = 'X' then (parseNatBase 16 rest).map (fun n => finJ n)
    else if c = 'o' ∨ c = 'O' then (parseNatBase 8 rest).map (fun n => finJ n)
    else if c = 'b' ∨ c = 'B' then (parseNatBase 2 rest).map (fun n => finJ n)
    else parseSignedDec ('0' :: c :: rest)
  | l => parseSignedDec l

/-- JavaScript `Number(string)` (trim, then parse); `none` is `NaN`. -/
def strToNumberL (l : List Char) : Option J := parseStrNum (trimWS l)

/-! ## Version Normalizer (`cleanVersion`, src/index.js lines 10–12) -/

/-- The operator characters of the regex `/^[\x5e~>=<]/`. -/
def isOpChar (c : Char) : Bool :=
  c = '^' || c = '~' || c = '>' || c = '=' || c = '<'

/-- `cleanVersion`: `version.replace(/^[\x5e~>=<]/, "")` — remove one leading
operator character if present. -/
def cleanVersion (version : String) : String :=
  match version.data with
  | [] => version
  | c :: rest => if isOpChar c then String.mk rest else version

/-- Number of leading operator characters of a version string. -/
def leadingOpCount (v : String) : ℕ := (v.data.takeWhile isOpChar).length

/-! ## Version Comparator (`isVersionHigher`, src/index.js lines 17–32) -/

/-- JavaScript `str.split(".")` on a character list. -/
def splitOnDot : List Char → List (List Char)
  | [] => [[]]
  | c :: rest =>
    let r := splitOnDot rest
    if c = '.' then [] :: r
    else
      match r with
      | s :: ss => (c :: s) :: ss
      | [] => [[c]]

/-- `vParts[i] || 0`: index into the parsed component list; out-of-range
(`undefined`) and `NaN` both give `0` (and `0` itself stays `0`). -/
def partAt (parts : List (Option J)) (i : ℕ) : J := (parts[i]?.bind id).getD (finJ 0)

/-- The comparison loop of `isVersionHigher`: iterate `fuel` times starting at
index `i`; return `true` on the first strictly greater component of `p1`,
`false` on the first strictly smaller one, `false` if the fuel runs out. -/
def higherLoop (p1 p2 : List (Option J)) : ℕ → ℕ → Bool
  | _, 0 => false
  | i, fuel + 1 =>
    let v1Part := partAt p1 i
    let v2Part := partAt p2 i
    if v2Part < v1Part then true
    else if v1Part < v2Part then false
    else higherLoop p1 p2 (i + 1) fuel

/-- `isVersionHigher(version1, version2)`: split on `.`, map `Number`, then
compare component-wise with `|| 0` padding for `maxLength` iterations. -/
def isVersionHigher (version1 version2 : String) : Bool :=
  let v1Parts := (splitOnDot version1.data).map strToNumberL
  let v2Parts := (splitOnDot version2.data).map strToNumberL
  let maxLength := max v1Parts.length v2Parts.length
  higherLoop v1Parts v2Parts 0 maxLength

/-- The padded component sequence of a version string: component `i` as the
comparison loop sees it (missing and `NaN` components are `0`). -/
def partCom (v : String) (i : ℕ) : J := partAt ((splitOnDot v.data).map strToNumberL) i

/-- Strict lexicographic order on padded component sequences: some position
`k` agrees below and is strictly greater at `k`. -/
def seqGt (f g : ℕ → J) : Prop := ∃ k, (∀ j, j < k → f j = g j) ∧ g k < f k

/-! ## Dependency Merger (`processDependencyGroup`, src/index.js lines 37–50) -/

/-- A JavaScript `Map` from package names to versions, as an
insertion-ordered association list. -/
abbrev DepMap := List (String × String)

/-- `Map.prototype.get` (also `has` via `isSome`). -/
def mapGet : DepMap → String → Option String
  | [], _ => none
  | (n, v) :: rest, name => if n = name then some v else mapGet rest name

/-- `Map.prototype.set`: update in place if the key exists, else append. -/
def mapSet : DepMap → String → String → DepMap
  | [], name, version => [(name, version)]
  | (n, v) :: rest, name, version =>
    if n = name then (name, version) :: rest else (n, v) :: mapSet rest name version

/-- The body of `processDependencyGroup`'s `for` loop, for one `(name,
version)` entry: clean the version; insert if the name is absent, overwrite
only if the cleaned version is strictly higher than the stored one. -/
def mergerStep (targetMap : DepMap) (e : String × String) : DepMap :=
  let cleanVersionStr := cleanVersion e.2
  match mapGet targetMap e.1 with
  | some existingVersion =>
    if isVersionHigher cleanVersionStr existingVersion then mapSet targetMap e.1 cleanVersionStr
    else targetMap
  | none => mapSet targetMap e.1 cleanVersionStr

/-- `processDependencyGroup(deps, targetMap)`: fold the loop body over the
entries of the group in object-key order. -/
def processDependencyGroup (deps : List (String × String)) (targetMap : DepMap) : DepMap :=
  deps.foldl mergerStep targetMap

/-- The effect of the merger on a single name: `none` if the name is absent,
otherwise keep the stored version unless the new cleaned one is higher. -/
def mergeOne (acc : Option String) (rawVersion : String) : Option String :=
  let c := cleanVersion rawVersion
  match acc with
  | none => some c
  | some existing => if isVersionHigher c existing then some c else some existing

/-- The raw versions declared for name `n` in one dependency group, in order. -/
def versionsFor (n : String) (deps : List (String × String)) : List String :=
  (deps.filter (fun e => e.1 = n)).map (fun e => e.2)

/-- Fold a list of dependency groups into a map, starting from the empty map
(the accumulation the orchestrator performs for one dependency kind). -/
def runGroups (gs : List (List (String × String))) : DepMap :=
  gs.foldl (fun m g => processDependencyGroup g m) []

/-! ## Project Finder (`findProjects`, src/index.js lines 55–79) -/

/-- A filesystem node: a file, or a directory with named children; a directory
carries `some errMsg` when `readdirSync` on it fails with that message. -/
inductive FSNode where
  | file : FSNode
  | dir (readError : Option String) (children : List (String × FSNode)) : FSNode

/-- Render a path (`path.join`, with `/` as separator). -/
def pathString : List String → String
  | [] => ""
  | [s] => s
  | s :: rest => s ++ "/" ++ pathString rest

/-- The warning printed when a directory cannot be read. -/
def dirWarnMsg (p : List String) (err : String) : String :=
  "Warning: Could not read directory " ++ pathString p ++ ": " ++ err

/-- `fs.existsSync(path.join(fullPath, n))` over the children of a directory:
an entry of that name exists (file or directory). -/
def existsChild (cs : List (String × FSNode)) (n : String) : Bool :=
  match cs with
  | [] => false
  | (n', _) :: rest => n' = n || existsChild rest n

mutual

/-- `findProjects(dir)` at path `p`: returns the recorded project paths and
the warnings printed, in order.  An unreadable directory contributes nothing
but a warning; a readable one is scanned entry by entry. -/
def findProjects : FSNode → List String → List (List String) × List String
  | .file, _ => ([], [])
  | .dir (some err) _, p => ([], [dirWarnMsg p err])
  | .dir none cs, p => goProjects cs p

/-- The `for (const item of items)` loop body of `findProjects`: files are
skipped; a subdirectory directly containing `package.json` is recorded; any
other subdirectory is recursed into. -/
def goProjects : List (String × FSNode) → List String → List (List String) × List String
  | [], _ => ([], [])
  | (_, .file) :: rest, p => goProjects rest p
  | (n, .dir re cs) :: rest, p =>
    if existsChild cs "package.json" then
      let r := goProjects rest p
      ((p ++ [n]) :: r.1, r.2)
    else
      let sub := findProjects (.dir re cs) (p ++ [n])
      let r := goProjects rest p
      (sub.1 ++ r.1, sub.2 ++ r.2)

end

/-- First child of a directory listing with the given name. -/
def lookupChild : List (String × FSNode) → String → Option FSNode
  | [], _ => none
  | (n', node) :: rest, n => if n' = n then some node else lookupChild rest n

/-- Does the relative path `q` lead from `d` to a directory the traversal
records as a project: every intermediate directory is readable and free of a
direct `package.json`, and the final directory has one. -/
def projPathLoop : List String → FSNode → Bool
  | [n], .dir none cs =>
    (match lookupChild cs n with
     | some (.dir _ cs') => existsChild cs' "package.json"
     | _ => false)
  | n :: q :: qs, .dir none cs =>
    (match lookupChild cs n with
     | some (.dir re cs') =>
       !existsChild cs' "package.json" && projPathLoop (q :: qs) (.dir re cs')
     | _ => false)
  | _, _ => false

/-- Wrapper giving `projPathLoop` the directory-first argument order used
throughout. -/
def isProjectPath (d : FSNode) (q : List String) : Bool := projPathLoop q d

mutual

/-- Well-formed filesystem: child names are distinct at every level (as
`readdirSync` guarantees on a real filesystem). -/
def wfFS : FSNode → Bool
  | .file => true
  | .dir _ cs => decide (cs.map Prod.fst).Nodup && wfChildren cs

/-- Well-formedness of a directory listing. -/
def wfChildren : List (String × FSNode) → Bool
  | [] => true
  | (_, node) :: rest => wfFS node && wfChildren rest

end

/-! ## Project Processor and orchestration (src/index.js lines 84–183) -/

/-- The parsed shape of a manifest: its two optional dependency groups (each
a name→version object in key order). -/
structure Manifest where
  dependencies : Option (List (String × String))
  devDependencies : Option (List (String × String))

/-- The warning printed when a manifest cannot be read or parsed. -/
def processWarnMsg (packageJsonPath : List String) (err : String) : String :=
  "Warning: Could not process " ++ pathString packageJsonPath ++ ": " ++ err

/-- `processProject(projectPath, dependencies, devDependencies)` with the
read-and-parse outcome supplied: on failure, warn and leave both maps
untouched; on success, merge each present dependency group. -/
def processProject (projectPath : List String) (manifest : Except String Manifest)
    (dependencies devDependencies : DepMap) : DepMap × DepMap × List String :=
  let packageJsonPath := projectPath ++ ["package.json"]
  match manifest with
  | .error err => (dependencies, devDependencies, [processWarnMsg packageJsonPath err])
  | .ok packageJson =>
    let deps' :=
      match packageJson.dependencies with
      | some g => processDependencyGroup g dependencies
      | none => dependencies
    let devDeps' :=
      match packageJson.devDependencies with
      | some g => processDependencyGroup g devDependencies
      | none => devDependencies
    (deps', devDeps', [])

/-- The sequential per-project processing loop of `scanProjects`: fold
`processProject` over the project list, collecting warnings. -/
def scanLoop (projects : List (List String × Except String Manifest))
    (dependencies devDependencies : DepMap) : DepMap × DepMap × List String :=
  match projects with
  | [] => (dependencies, devDependencies, [])
  | (pth, m) :: rest =>
    let r := processProject pth m dependencies devDependencies
    let rr := scanLoop rest r.1 r.2.1
    (rr.1, rr.2.1, r.2.2 ++ rr.2.2)

/-- The `dependencies` sections of the successfully processed manifests, in
processing order (manifests whose section is absent contribute nothing). -/
def okDepGroups (projects : List (List String × Except String Manifest)) :
    List (List (String × String)) :=
  projects.filterMap (fun pm =>
    match pm.2 with
    | .ok m => m.dependencies
    | .error _ => none)

/-- The `devDependencies` sections of the successfully processed manifests. -/
def okDevDepGroups (projects : List (List String × Except String Manifest)) :
    List (List (String × String)) :=
  projects.filterMap (fun pm =>
    match pm.2 with
    | .ok m => m.devDependencies
    | .error _ => none)

/-- The report object (`generateResult`'s return value); the two summary
counts are inlined as fields. -/
structure ScanResult where
  scanDate : String
  vegaPath : String
  totalProjects : ℕ
  dependencies : List (String × String)
  devDependencies : List (String × String)
  totalDependenciesCount : ℕ
  totalDevDependenciesCount : ℕ

/-- `generateResult(dependencies, devDependencies, vegaPath)`: caret-prefix
every stored version, and recompute `totalProjects` by a fresh
`findProjects(vegaPath)` walk over the filesystem as it is at build time. -/
def generateResult (dependencies devDependencies : DepMap) (rootFS : FSNode)
    (vegaPath : List String) (now : String) : ScanResult :=
  { scanDate := now
    vegaPath := pathString vegaPath
    totalProjects := (findProjects rootFS vegaPath).1.length
    dependencies := dependencies.map (fun e => (e.1, "^" ++ e.2))
    devDependencies := devDependencies.map (fun e => (e.1, "^" ++ e.2))
    totalDependenciesCount := dependencies.length
    totalDevDependenciesCount := devDependencies.length }

/-- The successful path of `scanProjects`: discover projects on the
discovery-time filesystem, process them sequentially, and build the result —
whose project count walks the (possibly changed) build-time filesystem. -/
def scanPipeline (fsDiscover fsBuild : FSNode)
    (readManifest : List String → Except String Manifest)
    (vegaPath : List String) (now : String) : ScanResult :=
  let projects := (findProjects fsDiscover vegaPath).1
  let r := scanLoop (projects.map (fun p => (p, readManifest p))) [] []
  generateResult r.1 r.2.1 fsBuild vegaPath now

/-! ## Lemmas: the comparator realizes lexicographic-numeric ordering -/

theorem partAt_oob (p : List (Option J)) (i : ℕ) (h : p.length ≤ i) : partAt p i = finJ 0 := by
  unfold partAt
  rw [List.getElem?_eq_none h]
  rfl

theorem higherLoop_true_iff (p1 p2 : List (Option J)) (fuel : ℕ) :
    ∀ i, higherLoop p1 p2 i fuel = true ↔
      ∃ k, k < fuel ∧ (∀ j, j < k → partAt p1 (i + j) = partAt p2 (i + j)) ∧
        partAt p2 (i + k) < partAt p1 (i + k) := by
  induction fuel with
  | zero => intro i; simp [higherLoop]
  | succ m ih =>
    intro i
    rw [higherLoop]
    by_cases h1 : partAt p2 i < partAt p1 i
    · simp only [h1, if_true, true_iff]
      exact ⟨0, Nat.succ_pos m, fun j hj => absurd hj (Nat.not_lt_zero j),
        by simpa using h1⟩
    · by_cases h2 : partAt p1 i < partAt p2 i
      · simp only [h1, h2, if_true, if_false, Bool.false_eq_true, false_iff]
        rintro ⟨k, -, hagree, hlt⟩
        rcases Nat.eq_zero_or_pos k with rfl | hk
        · exact h1 (by simpa using hlt)
        · exact absurd (hagree 0 hk) (by simpa using ne_of_lt h2)
      · have heq : partAt p1 i = partAt p2 i := le_antisymm (not_lt.mp h1) (not_lt.mp h2)
        simp only [h1, h2, if_false]
        rw [ih (i + 1)]
        constructor
        · rintro ⟨k, hk, hagree, hlt⟩
          refine ⟨k + 1, Nat.succ_lt_succ hk, ?_, ?_⟩
          · intro j hj
            rcases Nat.eq_zero_or_pos j with rfl | hj0
            · simpa using heq
            · obtain ⟨j', rfl⟩ := Nat.exists_eq_succ_of_ne_zero (Nat.pos_iff_ne_zero.mp hj0)
              have : i + (j' + 1) = (i + 1) + j' := by omega
              rw [this]
              exact hagree j' (by omega)
          · have : i + (k + 1) = (i + 1) + k := by omega
            rw [this]
            exact hlt
        · rintro ⟨k, hk, hagree, hlt⟩
          rcases Nat.eq_zero_or_pos k with rfl | hk0
          · exact absurd (by simpa using hlt) h1
          · obtain ⟨k', rfl⟩ := Nat.exists_eq_succ_of_ne_zero (Nat.pos_iff_ne_zero.mp hk0)
            refine ⟨k', by omega, ?_, ?_⟩
            · intro j hj
              have : (i + 1) + j = i + (j + 1) := by omega
              rw [this]
              exact hagree (j + 1) (by omega)
            · have : (i + 1) + k' = i + (k' + 1) := by omega
              rw [this]
              exact hlt

theorem isVersionHigher_iff (a b : String) :
    isVersionHigher a b = true ↔ seqGt (partCom a) (partCom b) := by
  unfold isVersionHigher seqGt
  rw [higherLoop_true_iff]
  constructor
  · rintro ⟨k, -, hagree, hlt⟩
    exact ⟨k, fun j hj => by simpa using hagree j hj, by simpa using hlt⟩
  · rintro ⟨k, hagree, hlt⟩
    by_cases hk :
        k < max ((splitOnDot a.data).map strToNumberL).length
          ((splitOnDot b.data).map strToNumberL).length
    · exact ⟨k, hk, fun j hj => by simpa [partCom] using hagree j hj, by simpa [partCom] using hlt⟩
    · exfalso
      have ha : partCom a k = finJ 0 :=
        partAt_oob _ _ (le_trans (le_max_left _ _) (not_lt.mp hk))
      have hb : partCom b k = finJ 0 :=
        partAt_oob _ _ (le_trans (le_max_right _ _) (not_lt.mp hk))
      rw [ha, hb] at hlt
      exact lt_irrefl _ hlt

theorem seqGt_irrefl (f : ℕ → J) : ¬ seqGt f f := by
  rintro ⟨k, -, hlt⟩
  exact lt_irrefl _ hlt

theorem seqGt_trans {f g h : ℕ → J} (h1 : seqGt f g) (h2 : seqGt g h) : seqGt f h := by
  obtain ⟨k1, a1, l1⟩ := h1
  obtain ⟨k2, a2, l2⟩ := h2
  rcases lt_trichotomy k1 k2 with hlt | rfl | hgt
  · exact ⟨k1, fun j hj => (a1 j hj).trans (a2 j (hj.trans hlt)),
      by rw [← a2 k1 hlt]; exact l1⟩
  · exact ⟨k1, fun j hj => (a1 j hj).trans (a2 j hj), lt_trans l2 l1⟩
  · exact ⟨k2, fun j hj => (a1 j (hj.trans hgt)).trans (a2 j hj),
      by rw [a1 k2 hgt]; exact l2⟩

theorem seqGt_asymm {f g : ℕ → J} (h : seqGt f g) : ¬ seqGt g f :=
  fun h' => seqGt_irrefl f (seqGt_trans h h')

theorem seqGt_congr_left {f f' g : ℕ → J} (he : ∀ i, f i = f' i) (h : seqGt f g) :
    seqGt f' g := by
  obtain ⟨k, a, l⟩ := h
  exact ⟨k, fun j hj => (he j).symm.trans (a j hj), by rw [← he k]; exact l⟩

theorem seqGt_congr_right {f g g' : ℕ → J} (he : ∀ i, g i = g' i) (h : seqGt f g) :
    seqGt f g' := by
  obtain ⟨k, a, l⟩ := h
  exact ⟨k, fun j hj => (a j hj).trans (he j), by rw [← he k]; exact l⟩

theorem seqGt_total_eq {f g : ℕ → J} (h1 : ¬ seqGt f g) (h2 : ¬ seqGt g f) :
    ∀ i, f i = g i := by
  by_contra hne
  push_neg at hne
  obtain ⟨i, hi⟩ := hne
  have hex : ∃ j, f j ≠ g j := ⟨i, hi⟩
  have hk := Nat.find_spec hex
  have hmin := fun j (hj : j < Nat.find hex) => Nat.find_min hex hj
  have hagree : ∀ j, j < Nat.find hex → f j = g j := by
    intro j hj
    have := hmin j hj
    simpa using this
  rcases lt_or_gt_of_ne hk with hlt | hgt
  · exact h2 ⟨Nat.find hex, fun j hj => (hagree j hj).symm, hlt⟩
  · exact h1 ⟨Nat.find hex, hagree, hgt⟩

theorem isVersionHigher_eq_false_iff (a b : String) :
    isVersionHigher a b = false ↔ ¬ seqGt (partCom a) (partCom b) := by
  rw [← isVersionHigher_iff]
  exact Bool.eq_false_iff.trans (by simp)

theorem higher_irrefl (a : String) : isVersionHigher a a = false := by
  rw [isVersionHigher_eq_false_iff]
  exact seqGt_irrefl _

theorem higher_trans {a b c : String} (h1 : isVersionHigher a b = true)
    (h2 : isVersionHigher b c = true) : isVersionHigher a c = true := by
  rw [isVersionHigher_iff] at *
  exact seqGt_trans h1 h2

theorem higher_asymm {a b : String} (h : isVersionHigher a b = true) :
    isVersionHigher b a = false := by
  rw [isVersionHigher_iff] at h
  rw [isVersionHigher_eq_false_iff]
  exact seqGt_asymm h

theorem higher_true_of_ge {c d e : String} (h1 : isVersionHigher c d = false)
    (h2 : isVersionHigher c e = true) : isVersionHigher d e = true := by
  rw [isVersionHigher_eq_false_iff] at h1
  rw [isVersionHigher_iff] at h2 ⊢
  by_cases hdc : seqGt (partCom d) (partCom c)
  · exact seqGt_trans hdc h2
  · exact seqGt_congr_left (seqGt_total_eq h1 hdc) h2

theorem higher_false_of_le {a d e : String} (h1 : isVersionHigher a e = false)
    (h2 : isVersionHigher d e = true) : isVersionHigher a d = false := by
  rw [isVersionHigher_eq_false_iff] at h1 ⊢
  rw [isVersionHigher_iff] at h2
  intro had
  exact h1 (seqGt_trans had h2)

theorem higher_true_of_gt_le {a d e : String} (h1 : isVersionHigher a e = false)
    (h2 : isVersionHigher d e = true) : isVersionHigher d a = true := by
  rw [isVersionHigher_eq_false_iff] at h1
  rw [isVersionHigher_iff] at h2 ⊢
  by_cases hda : seqGt (partCom d) (partCom a)
  · exact hda
  · by_cases had : seqGt (partCom a) (partCom d)
    · exact absurd (seqGt_trans had h2) h1
    · exact absurd (seqGt_congr_left (fun i => (seqGt_total_eq had hda i).symm) h2) h1

/-! ## Lemmas: the merger as a per-name fold -/

theorem mapGet_mapSet_self (m : DepMap) (k v : String) : mapGet (mapSet m k v) k = some v := by
  induction m with
  | nil => simp [mapSet, mapGet]
  | cons e rest ih =>
    obtain ⟨n, w⟩ := e
    by_cases h : n = k
    · subst h
      simp [mapSet, mapGet]
    · simp [mapSet, mapGet, h, ih]

theorem mapGet_mapSet_ne (m : DepMap) (k v k' : String) (h : k ≠ k') :
    mapGet (mapSet m k v) k' = mapGet m k' := by
  induction m with
  | nil => simp [mapSet, mapGet, h]
  | cons e rest ih =>
    obtain ⟨n, w⟩ := e
    by_cases hn : n = k
    · subst hn
      simp [mapSet, mapGet, h]
    · simp [mapSet, mapGet, hn, ih]

theorem mapGet_mergerStep_self (m : DepMap) (n ver : String) :
    mapGet (mergerStep m (n, ver)) n = mergeOne (mapGet m n) ver := by
  unfold mergerStep mergeOne
  cases hm : mapGet m n with
  | none => simp [mapGet_mapSet_self]
  | some existing =>
    by_cases hh : isVersionHigher (cleanVersion ver) existing
    · simp [hh, mapGet_mapSet_self]
    · simp [hh, hm]

theorem mapGet_mergerStep_ne (m : DepMap) (n1 ver n : String) (h : n1 ≠ n) :
    mapGet (mergerStep m (n1, ver)) n = mapGet m n := by
  unfold mergerStep
  cases hm : mapGet m n1 with
  | none => simp [mapGet_mapSet_ne _ _ _ _ h]
  | some existing =>
    by_cases hh : isVersionHigher (cleanVersion ver) existing
    · simp [hh, mapGet_mapSet_ne _ _ _ _ h]
    · simp [hh]

theorem versionsFor_cons_self (n ver : String) (rest : List (String × String)) :
    versionsFor n ((n, ver) :: rest) = ver :: versionsFor n rest := by
  simp [versionsFor, List.filter_cons]

theorem versionsFor_cons_ne (n n1 ver : String) (rest : List (String × String)) (h : n1 ≠ n) :
    versionsFor n ((n1, ver) :: rest) = versionsFor n rest := by
  simp [versionsFor, List.filter_cons, h]

theorem versionsFor_append (n : String) (a b : List (String × String)) :
    versionsFor n (a ++ b) = versionsFor n a ++ versionsFor n b := by
  simp [versionsFor, List.filter_append]

theorem mapGet_processDependencyGroup (deps : List (String × String)) (m : DepMap) (n : String) :
    mapGet (processDependencyGroup deps m) n =
      (versionsFor n deps).foldl mergeOne (mapGet m n) := by
  induction deps generalizing m with
  | nil => rfl
  | cons e rest ih =>
    obtain ⟨n1, ver⟩ := e
    have hstep : processDependencyGroup ((n1, ver) :: rest) m =
        processDependencyGroup rest (mergerStep m (n1, ver)) := rfl
    rw [hstep, ih]
    by_cases hn : n1 = n
    · subst hn
      rw [versionsFor_cons_self, List.foldl_cons, mapGet_mergerStep_self]
    · rw [versionsFor_cons_ne _ _ _ _ hn, mapGet_mergerStep_ne _ _ _ _ hn]

theorem mapGet_foldGroups (gs : List (List (String × String))) (d : DepMap) (n : String) :
    mapGet (gs.foldl (fun m g => processDependencyGroup g m) d) n =
      (versionsFor n gs.flatten).foldl mergeOne (mapGet d n) := by
  induction gs generalizing d with
  | nil => rfl
  | cons g rest ih =>
    rw [List.foldl_cons, ih, List.flatten_cons, versionsFor_append, List.foldl_append,
      mapGet_processDependencyGroup]

theorem mapGet_runGroups (gs : List (List (String × String))) (n : String) :
    mapGet (runGroups gs) n = (versionsFor n gs.flatten).foldl mergeOne none :=
  mapGet_foldGroups gs [] n

/-! ## Lemmas: the scan loop accumulates exactly the successful groups -/

theorem scanLoop_deps (ps : List (List String × Except String Manifest)) (d dd : DepMap) :
    (scanLoop ps d dd).1 = (okDepGroups ps).foldl (fun m g => processDependencyGroup g m) d := by
  induction ps generalizing d dd with
  | nil => rfl
  | cons pm rest ih =>
    obtain ⟨pth, m⟩ := pm
    cases m with
    | error err =>
      show (scanLoop rest d dd).1 = _
      rw [ih]
      rfl
    | ok pj =>
      cases hd : pj.dependencies with
      | none =>
        cases hdd : pj.devDependencies with
        | none => simp [scanLoop, processProject, hd, hdd, okDepGroups, ih]
        | some g => simp [scanLoop, processProject, hd, hdd, okDepGroups, ih]
      | some g =>
        cases hdd : pj.devDependencies with
        | none => simp [scanLoop, processProject, hd, hdd, okDepGroups, ih]
        | some g2 => simp [scanLoop, processProject, hd, hdd, okDepGroups, ih]

theorem scanLoop_devDeps (ps : List (List String × Except String Manifest)) (d dd : DepMap) :
    (scanLoop ps d dd).2.1 =
      (okDevDepGroups ps).foldl (fun m g => processDependencyGroup g m) dd := by
  induction ps generalizing d dd with
  | nil => rfl
  | cons pm rest ih =>
    obtain ⟨pth, m⟩ := pm
    cases m with
    | error err =>
      show (scanLoop rest d dd).2.1 = _
      rw [ih]
      rfl
    | ok pj =>
      cases hd : pj.dependencies with
      | none =>
        cases hdd : pj.devDependencies with
        | none => simp [scanLoop, processProject, hd, hdd, okDevDepGroups, ih]
        | some g => simp [scanLoop, processProject, hd, hdd, okDevDepGroups, ih]
      | some g =>
        cases hdd : pj.devDependencies with
        | none => simp [scanLoop, processProject, hd, hdd, okDevDepGroups, ih]
        | some g2 => simp [scanLoop, processProject, hd, hdd, okDevDepGroups, ih]

/-! ## Lemmas: the per-name fold keeps the first-seen maximum -/

theorem mergeOne_none_eq (v : String) : mergeOne none v = some (cleanVersion v) := rfl

theorem mergeOne_some_eq (e v : String) :
    mergeOne (some e) v =
      if isVersionHigher (cleanVersion v) e then some (cleanVersion v) else some e := rfl

theorem bestFoldSome_spec (l : List String) : ∀ e : String,
    (l.foldl mergeOne (some e) = some e ∧
      ∀ x ∈ l, isVersionHigher (cleanVersion x) e = false) ∨
    (∃ pre d post, l = pre ++ d :: post ∧
      l.foldl mergeOne (some e) = some (cleanVersion d) ∧
      isVersionHigher (cleanVersion d) e = true ∧
      (∀ x ∈ l, isVersionHigher (cleanVersion x) (cleanVersion d) = false) ∧
      (∀ x ∈ pre, isVersionHigher (cleanVersion d) (cleanVersion x) = true)) := by
  induction l with
  | nil => exact fun e => Or.inl ⟨rfl, by simp⟩
  | cons a l' ih =>
    intro e
    rw [List.foldl_cons]
    by_cases hae : isVersionHigher (cleanVersion a) e = true
    · have hacc : mergeOne (some e) a = some (cleanVersion a) := by
        rw [mergeOne_some_eq, if_pos hae]
      rw [hacc]
      rcases ih (cleanVersion a) with ⟨hfold, hmax⟩ | ⟨pre', d, post', hsplit, hfold, hgt, hmax, hpre⟩
      · refine Or.inr ⟨[], a, l', rfl, hfold, hae, ?_, by simp⟩
        intro x hx
        rcases List.mem_cons.mp hx with rfl | hx'
        · exact higher_irrefl _
        · exact hmax x hx'
      · refine Or.inr ⟨a :: pre', d, post', by rw [hsplit, List.cons_append], hfold,
          higher_trans hgt hae, ?_, ?_⟩
        · intro x hx
          rcases List.mem_cons.mp hx with rfl | hx'
          · exact higher_asymm hgt
          · exact hmax x hx'
        · intro x hx
          rcases List.mem_cons.mp hx with rfl | hx'
          · exact hgt
          · exact hpre x hx'
    · have hae' : isVersionHigher (cleanVersion a) e = false := Bool.eq_false_iff.mpr hae
      have hacc : mergeOne (some e) a = some e := by
        rw [mergeOne_some_eq, if_neg (by simp [hae'])]
      rw [hacc]
      rcases ih e with ⟨hfold, hmax⟩ | ⟨pre', d, post', hsplit, hfold, hgt, hmax, hpre⟩
      · refine Or.inl ⟨hfold, ?_⟩
        intro x hx
        rcases List.mem_cons.mp hx with rfl | hx'
        · exact hae'
        · exact hmax x hx'
      · refine Or.inr ⟨a :: pre', d, post', by rw [hsplit, List.cons_append], hfold, hgt, ?_, ?_⟩
        · intro x hx
          rcases List.mem_cons.mp hx with rfl | hx'
          · exact higher_false_of_le hae' hgt
          · exact hmax x hx'
        · intro x hx
          rcases List.mem_cons.mp hx with rfl | hx'
          · exact higher_true_of_gt_le hae' hgt
          · exact hpre x hx'

theorem bestFold_spec (l : List String) (v : String) (h : l.foldl mergeOne none = some v) :
    (∀ x ∈ l, isVersionHigher (cleanVersion x) v = false) ∧
    ∃ pre d post, l = pre ++ d :: post ∧ cleanVersion d = v ∧
      ∀ x ∈ pre, isVersionHigher v (cleanVersion x) = true := by
  cases l with
  | nil => simp [List.foldl_nil] at h
  | cons a l' =>
    rw [List.foldl_cons, mergeOne_none_eq] at h
    rcases bestFoldSome_spec l' (cleanVersion a) with
      ⟨hfold, hmax⟩ | ⟨pre', d, post', hsplit, hfold, hgt, hmax, hpre⟩
    · rw [hfold] at h
      have hv : cleanVersion a = v := by injection h
      subst hv
      refine ⟨?_, [], a, l', rfl, rfl, by simp⟩
      intro x hx
      rcases List.mem_cons.mp hx with rfl | hx'
      · exact higher_irrefl _
      · exact hmax x hx'
    · rw [hfold] at h
      have hv : cleanVersion d = v := by injection h
      subst hv
      refine ⟨?_, a :: pre', d, post', by rw [hsplit, List.cons_append], rfl, ?_⟩
      · intro x hx
        rcases List.mem_cons.mp hx with rfl | hx'
        · exact higher_asymm hgt
        · exact hmax x hx'
      · intro x hx
        rcases List.mem_cons.mp hx with rfl | hx'
        · exact hgt
        · exact hpre x hx'

/-! ## Lemmas: order-independence of merging under a total order -/

theorem mergeOne_comm_of_gt (acc : Option String) (x y : String)
    (hgt : isVersionHigher (cleanVersion x) (cleanVersion y) = true) :
    mergeOne (mergeOne acc x) y = mergeOne (mergeOne acc y) x := by
  have hlt : isVersionHigher (cleanVersion y) (cleanVersion x) = false := higher_asymm hgt
  cases acc with
  | none =>
    rw [mergeOne_none_eq, mergeOne_none_eq, mergeOne_some_eq, mergeOne_some_eq,
      if_neg (by simp [hlt]), if_pos hgt]
  | some e =>
    by_cases hxe : isVersionHigher (cleanVersion x) e = true
    · rw [mergeOne_some_eq, mergeOne_some_eq, if_pos hxe]
      by_cases hye : isVersionHigher (cleanVersion y) e = true
      · rw [if_pos hye, mergeOne_some_eq, mergeOne_some_eq, if_neg (by simp [hlt]),
          if_pos hgt]
      · rw [if_neg hye, mergeOne_some_eq, mergeOne_some_eq, if_neg (by simp [hlt]),
          if_pos hxe]
    · have hxe' : isVersionHigher (cleanVersion x) e = false := Bool.eq_false_iff.mpr hxe
      have hye : isVersionHigher (cleanVersion y) e = false := by
        by_contra hy
        have hy' : isVersionHigher (cleanVersion y) e = true := by
          cases h : isVersionHigher (cleanVersion y) e
          · exact absurd h hy
          · rfl
        exact hxe (higher_trans hgt hy')
      rw [mergeOne_some_eq, mergeOne_some_eq, if_neg (by simp [hxe']),
        if_neg (by simp [hye]), mergeOne_some_eq, mergeOne_some_eq,
        if_neg (by simp [hye]), if_neg (by simp [hxe'])]

theorem mergeOne_comm (acc : Option String) (x y : String)
    (h : cleanVersion x ≠ cleanVersion y →
      isVersionHigher (cleanVersion x) (cleanVersion y) = true ∨
        isVersionHigher (cleanVersion y) (cleanVersion x) = true) :
    mergeOne (mergeOne acc x) y = mergeOne (mergeOne acc y) x := by
  by_cases hxy : cleanVersion x = cleanVersion y
  · have hsame : ∀ m : Option String, mergeOne m x = mergeOne m y := by
      intro m
      unfold mergeOne
      rw [hxy]
    rw [hsame, hsame (mergeOne acc y), ← hsame acc]
  · rcases h hxy with hgt | hgt
    · exact mergeOne_comm_of_gt acc x y hgt
    · exact (mergeOne_comm_of_gt acc y x hgt).symm

theorem foldl_mergeOne_perm (l l' : List String) (hp : l.Perm l')
    (htot : ∀ u ∈ l, ∀ v ∈ l, cleanVersion u ≠ cleanVersion v →
      isVersionHigher (cleanVersion u) (cleanVersion v) = true ∨
        isVersionHigher (cleanVersion v) (cleanVersion u) = true) :
    ∀ acc : Option String, l.foldl mergeOne acc = l'.foldl mergeOne acc := by
  induction hp with
  | nil => intro acc; rfl
  | cons x p ih =>
    intro acc
    rw [List.foldl_cons, List.foldl_cons]
    exact ih (fun u hu v hv => htot u (List.mem_cons_of_mem x hu) v (List.mem_cons_of_mem x hv))
      (mergeOne acc x)
  | swap x y l₁ =>
    intro acc
    rw [List.foldl_cons, List.foldl_cons, List.foldl_cons, List.foldl_cons]
    rw [mergeOne_comm acc y x (htot y (by simp) x (by simp))]
  | trans p₁ p₂ ih₁ ih₂ =>
    intro acc
    rw [ih₁ htot acc]
    refine ih₂ ?_ acc
    intro u hu v hv
    exact htot u (p₁.mem_iff.mpr hu) v (p₁.mem_iff.mpr hv)

/-! ## Lemmas: the project finder -/

theorem findProjects_file (p : List String) : findProjects .file p = ([], []) := by
  rw [findProjects]

theorem findProjects_dirErr (e : String) (cs : List (String × FSNode)) (p : List String) :
    findProjects (.dir (some e) cs) p = ([], [dirWarnMsg p e]) := by
  rw [findProjects]

theorem findProjects_dirOk (cs : List (String × FSNode)) (p : List String) :
    findProjects (.dir none cs) p = goProjects cs p := by
  rw [findProjects]

theorem goProjects_nil (p : List String) : goProjects [] p = ([], []) := by
  rw [goProjects]

theorem goProjects_cons_file (n : String) (rest : List (String × FSNode)) (p : List String) :
    goProjects ((n, FSNode.file) :: rest) p = goProjects rest p := by
  rw [goProjects]

theorem goProjects_cons_dir (n : String) (re : Option String) (ccs : List (String × FSNode))
    (rest : List (String × FSNode)) (p : List String) :
    goProjects ((n, FSNode.dir re ccs) :: rest) p =
      if existsChild ccs "package.json" then
        ((p ++ [n]) :: (goProjects rest p).1, (goProjects rest p).2)
      else
        ((findProjects (.dir re ccs) (p ++ [n])).1 ++ (goProjects rest p).1,
         (findProjects (.dir re ccs) (p ++ [n])).2 ++ (goProjects rest p).2) := by
  rw [goProjects]

theorem mem_goProjects (cs : List (String × FSNode)) (p q : List String)
    (h : q ∈ (goProjects cs p).1) :
    ∃ n re ccs, (n, FSNode.dir re ccs) ∈ cs ∧
      ((existsChild ccs "package.json" = true ∧ q = p ++ [n]) ∨
       (existsChild ccs "package.json" = false ∧
         q ∈ (findProjects (.dir re ccs) (p ++ [n])).1)) := by
  induction cs with
  | nil => rw [goProjects_nil] at h; simp at h
  | cons c rest ih =>
    obtain ⟨n₀, node⟩ := c
    cases node with
    | file =>
      rw [goProjects_cons_file] at h
      obtain ⟨n, re, ccs, hmem, hor⟩ := ih h
      exact ⟨n, re, ccs, List.mem_cons_of_mem _ hmem, hor⟩
    | dir re₀ ccs₀ =>
      rw [goProjects_cons_dir] at h
      by_cases hm : existsChild ccs₀ "package.json"
      · rw [if_pos hm] at h
        rcases List.mem_cons.mp h with rfl | h'
        · exact ⟨n₀, re₀, ccs₀, List.mem_cons_self _ _, Or.inl ⟨hm, rfl⟩⟩
        · obtain ⟨n, re, ccs, hmem, hor⟩ := ih h'
          exact ⟨n, re, ccs, List.mem_cons_of_mem _ hmem, hor⟩
      · rw [if_neg hm] at h
        rcases List.mem_append.mp h with h' | h'
        · exact ⟨n₀, re₀, ccs₀, List.mem_cons_self _ _,
            Or.inr ⟨Bool.eq_false_iff.mpr hm, h'⟩⟩
        · obtain ⟨n, re, ccs, hmem, hor⟩ := ih h'
          exact ⟨n, re, ccs, List.mem_cons_of_mem _ hmem, hor⟩

theorem mem_goProjects_here (cs : List (String × FSNode)) (n : String) (re : Option String)
    (ccs : List (String × FSNode)) (p : List String)
    (hmem : (n, FSNode.dir re ccs) ∈ cs) (hm : existsChild ccs "package.json" = true) :
    p ++ [n] ∈ (goProjects cs p).1 := by
  induction cs with
  | nil => simp at hmem
  | cons c rest ih =>
    obtain ⟨n₀, node⟩ := c
    rcases List.mem_cons.mp hmem with heq | hmem'
    · injection heq with h1 h2
      subst h1
      subst h2
      rw [goProjects_cons_dir, if_pos hm]
      exact List.mem_cons_self _ _
    ·
      cases node with
      | file =>
        rw [goProjects_cons_file]
        exact ih hmem'
      | dir re₀ ccs₀ =>
        rw [goProjects_cons_dir]
        by_cases hm₀ : existsChild ccs₀ "package.json"
        · rw [if_pos hm₀]
          exact List.mem_cons_of_mem _ (ih hmem')
        · rw [if_neg hm₀]
          exact List.mem_append_right _ (ih hmem')

theorem mem_goProjects_there (cs : List (String × FSNode)) (n : String) (re : Option String)
    (ccs : List (String × FSNode)) (p q : List String)
    (hmem : (n, FSNode.dir re ccs) ∈ cs) (hm : existsChild ccs "package.json" = false)
    (hq : q ∈ (findProjects (.dir re ccs) (p ++ [n])).1) :
    q ∈ (goProjects cs p).1 := by
  induction cs with
  | nil => simp at hmem
  | cons c rest ih =>
    obtain ⟨n₀, node⟩ := c
    rcases List.mem_cons.mp hmem with heq | hmem'
    · injection heq with h1 h2
      subst h1
      subst h2
      rw [goProjects_cons_dir, if_neg (by simp [hm])]
      exact List.mem_append_left _ hq
    ·
      cases node with
      | file =>
        rw [goProjects_cons_file]
        exact ih hmem'
      | dir re₀ ccs₀ =>
        rw [goProjects_cons_dir]
        by_cases hm₀ : existsChild ccs₀ "package.json"
        · rw [if_pos hm₀]
          exact List.mem_cons_of_mem _ (ih hmem')
        · rw [if_neg hm₀]
          exact List.mem_append_right _ (ih hmem')

theorem findProjects_result_extends :
    ∀ (d : FSNode) (p q : List String), q ∈ (findProjects d p).1 → ∃ s, s ≠ [] ∧ q = p ++ s
  | .file, p, q, h => absurd h (by rw [findProjects_file]; simp)
  | .dir (some e) cs, p, q, h => absurd h (by rw [findProjects_dirErr]; simp)
  | .dir none cs, p, q, h => by
    rw [findProjects_dirOk] at h
    obtain ⟨n, re, ccs, hmem, hor⟩ := mem_goProjects cs p q h
    rcases hor with ⟨-, rfl⟩ | ⟨-, hq⟩
    · exact ⟨[n], by simp, rfl⟩
    · obtain ⟨s, hs, rfl⟩ := findProjects_result_extends (.dir re ccs) (p ++ [n]) q hq
      exact ⟨n :: s, by simp, by simp⟩
termination_by d _ _ _ => sizeOf d
decreasing_by
  have h1 := List.sizeOf_lt_of_mem hmem
  simp only [Prod.mk.sizeOf_spec, FSNode.dir.sizeOf_spec] at h1
  simp only [FSNode.dir.sizeOf_spec]
  omega

theorem goProjects_append (cs₁ cs₂ : List (String × FSNode)) (p : List String) :
    goProjects (cs₁ ++ cs₂) p =
      ((goProjects cs₁ p).1 ++ (goProjects cs₂ p).1,
       (goProjects cs₁ p).2 ++ (goProjects cs₂ p).2) := by
  induction cs₁ with
  | nil => rw [goProjects_nil, List.nil_append]; simp
  | cons c rest ih =>
    obtain ⟨n, node⟩ := c
    cases node with
    | file => rw [List.cons_append, goProjects_cons_file, goProjects_cons_file, ih]
    | dir re ccs =>
      rw [List.cons_append, goProjects_cons_dir, goProjects_cons_dir]
      by_cases hm : existsChild ccs "package.json"
      · rw [if_pos hm, if_pos hm, ih]
        simp
      · rw [if_neg hm, if_neg hm, ih]
        simp [List.append_assoc]

theorem lookupChild_mem (cs : List (String × FSNode)) (n : String) (node : FSNode)
    (h : lookupChild cs n = some node) : (n, node) ∈ cs := by
  induction cs with
  | nil => simp [lookupChild] at h
  | cons c rest ih =>
    obtain ⟨n₀, node₀⟩ := c
    by_cases hn : n₀ = n
    · subst hn
      rw [lookupChild, if_pos rfl] at h
      injection h with h
      subst h
      exact List.mem_cons_self _ _
    · rw [lookupChild, if_neg hn] at h
      exact List.mem_cons_of_mem _ (ih h)

theorem lookupChild_eq_of_mem (cs : List (String × FSNode)) (n : String) (node : FSNode)
    (hnd : (cs.map Prod.fst).Nodup) (hm : (n, node) ∈ cs) : lookupChild cs n = some node := by
  induction cs with
  | nil => simp at hm
  | cons c rest ih =>
    obtain ⟨n₀, node₀⟩ := c
    rcases List.mem_cons.mp hm with heq | hm'
    · injection heq with h1 h2
      subst h1
      subst h2
      rw [lookupChild, if_pos rfl]
    · have hnd' : n₀ ∉ rest.map Prod.fst ∧ (rest.map Prod.fst).Nodup := by
        rw [List.map_cons] at hnd
        exact ⟨(List.nodup_cons.mp hnd).1, (List.nodup_cons.mp hnd).2⟩
      have hn : n₀ ≠ n := by
        rintro rfl
        exact hnd'.1 (List.mem_map.mpr ⟨(n₀, node), hm', rfl⟩)
      rw [lookupChild, if_neg hn]
      exact ih hnd'.2 hm'

theorem wfFS_dir_parts (re : Option String) (cs : List (String × FSNode))
    (h : wfFS (.dir re cs) = true) :
    (cs.map Prod.fst).Nodup ∧ wfChildren cs = true := by
  rw [wfFS, Bool.and_eq_true] at h
  exact ⟨of_decide_eq_true h.1, h.2⟩

theorem wfChildren_mem (cs : List (String × FSNode)) (n : String) (node : FSNode)
    (h : wfChildren cs = true) (hm : (n, node) ∈ cs) : wfFS node = true := by
  induction cs with
  | nil => simp at hm
  | cons c rest ih =>
    obtain ⟨n₀, node₀⟩ := c
    rw [wfChildren, Bool.and_eq_true] at h
    rcases List.mem_cons.mp hm with heq | hm'
    · injection heq with h1 h2
      subst h1
      subst h2
      exact h.1
    · exact ih h.2 hm'

theorem isProjectPath_ne_nil (d : FSNode) (h : isProjectPath d [] = true) : False := by
  cases d with
  | file => simp [isProjectPath, projPathLoop] at h
  | dir re cs =>
    cases re with
    | none => simp [isProjectPath, projPathLoop] at h
    | some e => simp [isProjectPath, projPathLoop] at h

theorem isProjectPath_single_eq (cs : List (String × FSNode)) (n : String)
    (re : Option String) (ccs : List (String × FSNode))
    (hl : lookupChild cs n = some (.dir re ccs)) :
    isProjectPath (.dir none cs) [n] = existsChild ccs "package.json" := by
  simp only [isProjectPath, projPathLoop, hl]

theorem isProjectPath_single_none (cs : List (String × FSNode)) (n : String)
    (hl : lookupChild cs n = none ∨ lookupChild cs n = some .file) :
    isProjectPath (.dir none cs) [n] = false := by
  rcases hl with hl | hl <;> simp only [isProjectPath, projPathLoop, hl]

theorem isProjectPath_cons_eq (cs : List (String × FSNode)) (n s₀ : String) (s' : List String)
    (re : Option String) (ccs : List (String × FSNode))
    (hl : lookupChild cs n = some (.dir re ccs)) :
    isProjectPath (.dir none cs) (n :: s₀ :: s') =
      (!existsChild ccs "package.json" && isProjectPath (.dir re ccs) (s₀ :: s')) := by
  simp only [isProjectPath, projPathLoop, hl]

theorem isProjectPath_cons_none (cs : List (String × FSNode)) (n s₀ : String) (s' : List String)
    (hl : lookupChild cs n = none ∨ lookupChild cs n = some .file) :
    isProjectPath (.dir none cs) (n :: s₀ :: s') = false := by
  rcases hl with hl | hl <;> simp only [isProjectPath, projPathLoop, hl]

theorem isProjectPath_mem_findProjects :
    ∀ (s : List String) (d : FSNode) (p : List String),
      isProjectPath d s = true → p ++ s ∈ (findProjects d p).1 := by
  intro s
  induction s with
  | nil => intro d p h; exact (isProjectPath_ne_nil d h).elim
  | cons n s' ih =>
    intro d p h
    cases d with
    | file => simp [isProjectPath, projPathLoop] at h
    | dir re cs =>
      cases re with
      | some e => simp [isProjectPath, projPathLoop] at h
      | none =>
        cases hl : lookupChild cs n with
        | none =>
          cases s' with
          | nil => rw [isProjectPath_single_none cs n (Or.inl hl)] at h; exact absurd h (by simp)
          | cons s₀ s'' =>
            rw [isProjectPath_cons_none cs n s₀ s'' (Or.inl hl)] at h
            exact absurd h (by simp)
        | some node =>
          cases node with
          | file =>
            cases s' with
            | nil =>
              rw [isProjectPath_single_none cs n (Or.inr hl)] at h
              exact absurd h (by simp)
            | cons s₀ s'' =>
              rw [isProjectPath_cons_none cs n s₀ s'' (Or.inr hl)] at h
              exact absurd h (by simp)
          | dir cre ccs =>
            cases s' with
            | nil =>
              rw [isProjectPath_single_eq cs n cre ccs hl] at h
              rw [findProjects_dirOk]
              exact mem_goProjects_here cs n cre ccs p (lookupChild_mem _ _ _ hl) h
            | cons s₀ s'' =>
              rw [isProjectPath_cons_eq cs n s₀ s'' cre ccs hl, Bool.and_eq_true,
                Bool.not_eq_true'] at h
              have hrec := ih (.dir cre ccs) (p ++ [n]) h.2
              rw [findProjects_dirOk]
              have hsh : p ++ n :: s₀ :: s'' = (p ++ [n]) ++ (s₀ :: s'') := by simp
              rw [hsh]
              exact mem_goProjects_there cs n cre ccs p _ (lookupChild_mem _ _ _ hl) h.1 hrec

theorem findProjects_mem_isProjectPath :
    ∀ (d : FSNode), wfFS d = true → ∀ (p q : List String), q ∈ (findProjects d p).1 →
      ∃ s, q = p ++ s ∧ isProjectPath d s = true
  | .file, _, p, q, h => absurd h (by rw [findProjects_file]; simp)
  | .dir (some e) cs, _, p, q, h => absurd h (by rw [findProjects_dirErr]; simp)
  | .dir none cs, hwf, p, q, h => by
    rw [findProjects_dirOk] at h
    obtain ⟨n, re, ccs, hmem, hor⟩ := mem_goProjects cs p q h
    obtain ⟨hnd, hwfc⟩ := wfFS_dir_parts none cs hwf
    have hl : lookupChild cs n = some (.dir re ccs) := lookupChild_eq_of_mem cs n _ hnd hmem
    rcases hor with ⟨hm, rfl⟩ | ⟨hm, hq⟩
    · exact ⟨[n], rfl, by rw [isProjectPath_single_eq cs n re ccs hl]; exact hm⟩
    · have hwfchild : wfFS (.dir re ccs) = true := wfChildren_mem cs n _ hwfc hmem
      obtain ⟨s', rfl, hpp⟩ :=
        findProjects_mem_isProjectPath (.dir re ccs) hwfchild (p ++ [n]) q hq
      obtain ⟨s₀, s'', rfl⟩ : ∃ a b, s' = a :: b := by
        cases s' with
        | nil => exact (isProjectPath_ne_nil _ hpp).elim
        | cons a b => exact ⟨a, b, rfl⟩
      refine ⟨n :: s₀ :: s'', by simp, ?_⟩
      rw [isProjectPath_cons_eq cs n s₀ s'' re ccs hl, Bool.and_eq_true, Bool.not_eq_true']
      exact ⟨hm, hpp⟩
termination_by d _ _ _ _ => sizeOf d
decreasing_by
  have h1 := List.sizeOf_lt_of_mem hmem
  simp only [Prod.mk.sizeOf_spec, FSNode.dir.sizeOf_spec] at h1
  simp only [FSNode.dir.sizeOf_spec]
  omega

theorem isProjectPath_no_extension :
    ∀ (s : List String) (d : FSNode) (t : List String), t ≠ [] →
      isProjectPath d s = true → isProjectPath d (s ++ t) = true → False := by
  intro s
  induction s with
  | nil => intro d t ht h1 h2; exact isProjectPath_ne_nil d h1
  | cons n s' ih =>
    intro d t ht h1 h2
    cases d with
    | file => simp [isProjectPath, projPathLoop] at h1
    | dir re cs =>
      cases re with
      | some e => simp [isProjectPath, projPathLoop] at h1
      | none =>
        cases hl : lookupChild cs n with
        | none =>
          cases s' with
          | nil => rw [isProjectPath_single_none cs n (Or.inl hl)] at h1; simp at h1
          | cons s₀ s'' =>
            rw [isProjectPath_cons_none cs n s₀ s'' (Or.inl hl)] at h1
            simp at h1
        | some node =>
          cases node with
          | file =>
            cases s' with
            | nil => rw [isProjectPath_single_none cs n (Or.inr hl)] at h1; simp at h1
            | cons s₀ s'' =>
              rw [isProjectPath_cons_none cs n s₀ s'' (Or.inr hl)] at h1
              simp at h1
          | dir cre ccs =>
            cases s' with
            | nil =>
              rw [isProjectPath_single_eq cs n cre ccs hl] at h1
              obtain ⟨t₀, t', rfl⟩ : ∃ a b, t = a :: b := by
                cases t with
                | nil => exact absurd rfl ht
                | cons a b => exact ⟨a, b, rfl⟩
              rw [show ([n] ++ (t₀ :: t') : List String) = n :: t₀ :: t' from rfl,
                isProjectPath_cons_eq cs n t₀ t' cre ccs hl, Bool.and_eq_true,
                Bool.not_eq_true'] at h2
              rw [h2.1] at h1
              exact absurd h1 (by simp)
            | cons s₀ s'' =>
              rw [isProjectPath_cons_eq cs n s₀ s'' cre ccs hl, Bool.and_eq_true,
                Bool.not_eq_true'] at h1
              rw [show ((n :: s₀ :: s'') ++ t : List String) = n :: s₀ :: (s'' ++ t) from rfl] at h2
              rw [isProjectPath_cons_eq cs n s₀ (s'' ++ t) cre ccs hl, Bool.and_eq_true,
                Bool.not_eq_true'] at h2
              exact ih (.dir cre ccs) t ht h1.2 h2.2

/-! ## Lemmas: scan loop, normalizer equations -/

theorem scanLoop_cons (pth : List String) (m : Except String Manifest)
    (rest : List (List String × Except String Manifest)) (d dd : DepMap) :
    scanLoop ((pth, m) :: rest) d dd =
      ((scanLoop rest (processProject pth m d dd).1 (processProject pth m d dd).2.1).1,
       (scanLoop rest (processProject pth m d dd).1 (processProject pth m d dd).2.1).2.1,
       (processProject pth m d dd).2.2 ++
         (scanLoop rest (processProject pth m d dd).1 (processProject pth m d dd).2.1).2.2) :=
  rfl

theorem processProject_error (pth : List String) (err : String) (d dd : DepMap) :
    processProject pth (.error err) d dd =
      (d, dd, [processWarnMsg (pth ++ ["package.json"]) err]) := rfl

theorem scanLoop_skip_error (pre post : List (List String × Except String Manifest))
    (pth : List String) (err : String) (d dd : DepMap) :
    (scanLoop (pre ++ (pth, Except.error err) :: post) d dd).1 =
      (scanLoop (pre ++ post) d dd).1 ∧
    (scanLoop (pre ++ (pth, Except.error err) :: post) d dd).2.1 =
      (scanLoop (pre ++ post) d dd).2.1 ∧
    processWarnMsg (pth ++ ["package.json"]) err ∈
      (scanLoop (pre ++ (pth, Except.error err) :: post) d dd).2.2 := by
  induction pre generalizing d dd with
  | nil =>
    rw [List.nil_append, List.nil_append, scanLoop_cons, processProject_error]
    exact ⟨rfl, rfl, List.mem_cons_self _ _⟩
  | cons pm rest ih =>
    obtain ⟨pth₀, m₀⟩ := pm
    rw [List.cons_append, List.cons_append, scanLoop_cons, scanLoop_cons]
    obtain ⟨ih1, ih2, ih3⟩ :=
      ih (processProject pth₀ m₀ d dd).1 (processProject pth₀ m₀ d dd).2.1
    exact ⟨ih1, ih2, List.mem_append_right _ ih3⟩

theorem cleanVersion_eq (version : String) :
    cleanVersion version =
      match version.data with
      | [] => version
      | c :: rest => if isOpChar c then String.mk rest else version := rfl

theorem cleanVersion_caret (v : String) : cleanVersion ("^" ++ v) = v := rfl

theorem cleanVersion_of_not_op (y : String) (h : (y.data.takeWhile isOpChar).length = 0) :
    cleanVersion y = y := by
  cases hd : y.data with
  | nil => rw [cleanVersion_eq, hd]
  | cons c rest =>
    rw [hd, List.takeWhile_cons] at h
    by_cases hc : isOpChar c
    · rw [if_pos hc] at h
      simp at h
    · rw [cleanVersion_eq, hd]
      dsimp only
      rw [if_neg hc]

theorem cleanVersion_of_op (y : String) (c : Char) (rest : List Char)
    (hd : y.data = c :: rest) (hc : isOpChar c = true) : cleanVersion y = String.mk rest := by
  rw [cleanVersion_eq, hd]
  dsimp only
  rw [if_pos hc]

/-! ## Claim theorems -/

/-- C5: for every project whose manifest cannot be read or parsed, the Project
Processor emits a warning naming the offending manifest path and the
underlying error, leaves both accumulating mappings exactly as they were, and
the scan continues over the remaining projects: the final mappings are those
of the run with the failing project removed, and the warning appears in the
run's output. -/
theorem processor_failure_no_op (projectPath : List String) (err : String)
    (deps devDeps : DepMap) (pre post : List (List String × Except String Manifest)) :
    processProject projectPath (.error err) deps devDeps =
      (deps, devDeps, [processWarnMsg (projectPath ++ ["package.json"]) err]) ∧
    (scanLoop (pre ++ (projectPath, Except.error err) :: post) deps devDeps).1 =
      (scanLoop (pre ++ post) deps devDeps).1 ∧
    (scanLoop (pre ++ (projectPath, Except.error err) :: post) deps devDeps).2.1 =
      (scanLoop (pre ++ post) deps devDeps).2.1 ∧
    processWarnMsg (projectPath ++ ["package.json"]) err ∈
      (scanLoop (pre ++ (projectPath, Except.error err) :: post) deps devDeps).2.2 := by
  obtain ⟨h1, h2, h3⟩ := scanLoop_skip_error pre post projectPath err deps devDeps
  exact ⟨processProject_error _ _ _ _, h1, h2, h3⟩

/-- C7: every stored cleaned version `v` appears in the report with the value
`^v` prepended, and the Version Normalizer applied to that output value yields
exactly `v` again. -/
theorem report_caret_round_trip (deps devDeps : DepMap) (rootFS : FSNode)
    (vegaPath : List String) (now : String) (n v : String) :
    ((n, v) ∈ deps →
      (n, "^" ++ v) ∈ (generateResult deps devDeps rootFS vegaPath now).dependencies) ∧
    ((n, v) ∈ devDeps →
      (n, "^" ++ v) ∈ (generateResult deps devDeps rootFS vegaPath now).devDependencies) ∧
    cleanVersion ("^" ++ v) = v := by
  refine ⟨fun h => ?_, fun h => ?_, cleanVersion_caret v⟩
  · exact List.mem_map_of_mem (fun e => (e.1, "^" ++ e.2)) h
  · exact List.mem_map_of_mem (fun e => (e.1, "^" ++ e.2)) h

/-- C7 witness: a concrete stored entry round-trips through the report. -/
theorem report_caret_round_trip_witness :
    ("a", "^" ++ "1.2") ∈
      (generateResult [("a", "1.2")] [] FSNode.file [] "t").dependencies ∧
    cleanVersion ("^" ++ "1.2") = "1.2" :=
  ⟨(report_caret_round_trip [("a", "1.2")] [] FSNode.file [] "t" "a" "1.2").1 (by simp),
   (report_caret_round_trip [("a", "1.2")] [] FSNode.file [] "t" "a" "1.2").2.2⟩

/-- C8: the Version Normalizer removes at most one leading character, and only
when that character is one of `^ ~ > = <`, returning the remainder (or the
input) otherwise unchanged; and on inputs with at most one leading operator
character it is idempotent. -/
theorem normalizer_removes_one (x : String) :
    (cleanVersion x = x ∨
      ∃ c rest, x.data = c :: rest ∧ isOpChar c = true ∧ (cleanVersion x).data = rest) ∧
    (leadingOpCount x ≤ 1 → cleanVersion (cleanVersion x) = cleanVersion x) := by
  constructor
  · cases hd : x.data with
    | nil => left; rw [cleanVersion_eq, hd]
    | cons c rest =>
      by_cases hop : isOpChar c
      · exact Or.inr ⟨c, rest, by simp [hd], hop, by rw [cleanVersion_of_op x c rest hd hop]⟩
      · left
        rw [cleanVersion_eq, hd]
        dsimp only
        rw [if_neg hop]
  · intro hle
    cases hd : x.data with
    | nil =>
      have h0 : cleanVersion x = x := by rw [cleanVersion_eq, hd]
      rw [h0, h0]
    | cons c rest =>
      by_cases hop : isOpChar c
      · have h0 : cleanVersion x = String.mk rest := cleanVersion_of_op x c rest hd hop
        rw [h0]
        refine cleanVersion_of_not_op _ ?_
        rw [leadingOpCount, hd, List.takeWhile_cons, if_pos hop] at hle
        rw [List.length_cons] at hle
        have : (rest.takeWhile isOpChar).length = 0 := by omega
        simpa using this
      · have h0 : cleanVersion x = x := by
          rw [cleanVersion_eq, hd]
          dsimp only
          rw [if_neg hop]
        rw [h0, h0]

/-- C8 witness: applied at `"^1.2"`, which has one operator-character leading
run, the normalizer is idempotent. -/
theorem normalizer_removes_one_witness :
    leadingOpCount "^1.2" ≤ 1 ∧
      cleanVersion (cleanVersion "^1.2") = cleanVersion "^1.2" :=
  ⟨by decide, (normalizer_removes_one "^1.2").2 (by decide)⟩

/-- C9: the report's `totalProjects` field equals the length of a fresh
`findProjects` walk over the root as the filesystem is at result-building
time, independently of the discovery-time filesystem (whose own project list
drives processing but is not consulted for the count). -/
theorem result_recounts_projects (fsDiscover fsBuild : FSNode)
    (readManifest : List String → Except String Manifest)
    (vegaPath : List String) (now : String) :
    (scanPipeline fsDiscover fsBuild readManifest vegaPath now).totalProjects =
      (findProjects fsBuild vegaPath).1.length := rfl

/-- C2: the Version Comparator returns true iff, comparing the `.`-separated
components numerically left to right with missing and `NaN` components padded
to `0`, the first string's first differing component is strictly greater; it
returns false whenever the padded components all agree, and in particular on
equal arguments. -/
theorem comparator_lexicographic (a b : String) :
    (isVersionHigher a b = true ↔
      ∃ i, (∀ j, j < i → partCom a j = partCom b j) ∧ partCom b i < partCom a i) ∧
    ((∀ i, partCom a i = partCom b i) → isVersionHigher a b = false) ∧
    isVersionHigher a a = false := by
  refine ⟨isVersionHigher_iff a b, ?_, higher_irrefl a⟩
  intro h
  rw [isVersionHigher_eq_false_iff]
  rintro ⟨k, -, hlt⟩
  rw [h k] at hlt
  exact lt_irrefl _ hlt

/-- C2 witness: `1.10` is ranked higher than `1.2` via the strictly greater
second component. -/
theorem comparator_lexicographic_witness : isVersionHigher "1.10" "1.2" = true :=
  (comparator_lexicographic "1.10" "1.2").1.mpr ⟨1, by decide, by decide⟩

/-- C1 counterexample: the claim fails as stated for a declared version whose
operator character precedes a negative numeric component. The run below
stores the cleaned version `-1` for `lib`, yet the comparator ranks the raw
declared version `^-1` strictly higher than the stored `-1` (the raw first
component parses to `NaN`, padded to `0`, and `0 > -1`), so the stored
version is ranked lower than a version declared for that name. -/
theorem c1_counterexample :
    mapGet (scanLoop [(["A"], Except.ok ⟨some [("lib", "^-1")], none⟩)] [] []).1 "lib" =
      some "-1" ∧
    isVersionHigher "^-1" "-1" = true := by decide

/-- C1 (amended): for every run, each package name present in a final
dependency mapping is mapped to a cleaned version that the Version Comparator
never ranks lower than the cleaned form of any version declared for that name
in that dependency group across all successfully processed manifests; the
stored version is the cleaned form of the first-seen declared version whose
cleaned form is maximal (every earlier declared version cleans to a strictly
lower version). -/
theorem scan_highest_invariant (ps : List (List String × Except String Manifest))
    (n v : String) :
    (mapGet (scanLoop ps [] []).1 n = some v →
      (∀ d ∈ versionsFor n (okDepGroups ps).flatten,
        isVersionHigher (cleanVersion d) v = false) ∧
      ∃ pre d post, versionsFor n (okDepGroups ps).flatten = pre ++ d :: post ∧
        cleanVersion d = v ∧
        ∀ x ∈ pre, isVersionHigher v (cleanVersion x) = true) ∧
    (mapGet (scanLoop ps [] []).2.1 n = some v →
      (∀ d ∈ versionsFor n (okDevDepGroups ps).flatten,
        isVersionHigher (cleanVersion d) v = false) ∧
      ∃ pre d post, versionsFor n (okDevDepGroups ps).flatten = pre ++ d :: post ∧
        cleanVersion d = v ∧
        ∀ x ∈ pre, isVersionHigher v (cleanVersion x) = true) := by
  constructor
  · intro h
    rw [scanLoop_deps, mapGet_foldGroups] at h
    exact bestFold_spec _ _ h
  · intro h
    rw [scanLoop_devDeps, mapGet_foldGroups] at h
    exact bestFold_spec _ _ h

/-- C1 witness: a run over two manifests declaring `1.2` and `^1.10` for
`lib` stores `1.10`, which dominates both cleaned declared versions, and is
the cleaned form of the first (and only) maximal declared version. -/
theorem scan_highest_invariant_witness :
    (∀ d ∈ versionsFor "lib" (okDepGroups
        [(["A"], Except.ok ⟨some [("lib", "1.2")], none⟩),
         (["B"], Except.ok ⟨some [("lib", "^1.10")], none⟩)]).flatten,
      isVersionHigher (cleanVersion d) "1.10" = false) ∧
    ∃ pre d post, versionsFor "lib" (okDepGroups
        [(["A"], Except.ok ⟨some [("lib", "1.2")], none⟩),
         (["B"], Except.ok ⟨some [("lib", "^1.10")], none⟩)]).flatten = pre ++ d :: post ∧
      cleanVersion d = "1.10" ∧
      ∀ x ∈ pre, isVersionHigher "1.10" (cleanVersion x) = true :=
  (scan_highest_invariant
    [(["A"], Except.ok ⟨some [("lib", "1.2")], none⟩),
     (["B"], Except.ok ⟨some [("lib", "^1.10")], none⟩)] "lib" "1.10").1 (by decide)

/-- C4: folding the same entries into an initially empty mapping via the
Dependency Merger yields, for every package name, the same stored version
regardless of processing order, provided the Version Comparator totally
orders the cleaned versions involved (distinct cleaned versions are strictly
comparable one way or the other). -/
theorem merger_order_independent (entries entries' : List (String × String))
    (hp : entries.Perm entries')
    (htot : ∀ u ∈ entries, ∀ v ∈ entries, cleanVersion u.2 ≠ cleanVersion v.2 →
      isVersionHigher (cleanVersion u.2) (cleanVersion v.2) = true ∨
        isVersionHigher (cleanVersion v.2) (cleanVersion u.2) = true)
    (n : String) :
    mapGet (processDependencyGroup entries []) n =
      mapGet (processDependencyGroup entries' []) n := by
  rw [mapGet_processDependencyGroup, mapGet_processDependencyGroup]
  have hperm : (versionsFor n entries).Perm (versionsFor n entries') := by
    unfold versionsFor
    exact (hp.filter _).map _
  refine foldl_mergeOne_perm _ _ hperm ?_ (mapGet [] n)
  intro u hu v hv
  obtain ⟨eu, heu, rfl⟩ := List.mem_map.mp hu
  obtain ⟨ev, hev, rfl⟩ := List.mem_map.mp hv
  exact htot eu (List.mem_of_mem_filter heu) ev (List.mem_of_mem_filter hev)

/-- C4 witness: two entries merged in both orders give the same value for
`"a"`. -/
theorem merger_order_independent_witness :
    mapGet (processDependencyGroup [("a", "1.2"), ("b", "2.0")] []) "a" =
      mapGet (processDependencyGroup [("b", "2.0"), ("a", "1.2")] []) "a" :=
  merger_order_independent _ _ (by decide) (by decide) "a"

/-- C3: the Project Finder never descends into a directory that itself
directly contains `package.json`: whenever the traversal reaches such a
directory (`isProjectPath` states that every intermediate directory below the
root is readable and manifest-free and that the final directory directly
contains `package.json`), that directory is recorded as a project and no path
strictly inside it ever appears in the result (its subtree is not
traversed). Listings are assumed well-formed (distinct child names), as
`readdirSync` guarantees. -/
theorem finder_stops_at_manifest (d : FSNode) (p q : List String)
    (hwf : wfFS d = true) (hq : isProjectPath d q = true) :
    p ++ q ∈ (findProjects d p).1 ∧
    ∀ q' ∈ (findProjects d p).1, ∀ t, t ≠ [] → q' ≠ (p ++ q) ++ t := by
  refine ⟨isProjectPath_mem_findProjects q d p hq, ?_⟩
  intro q' hq' t ht heq
  subst heq
  obtain ⟨s, hs, hpp⟩ := findProjects_mem_isProjectPath d hwf p _ hq'
  have hs' : q ++ t = s := by
    rw [List.append_assoc] at hs
    exact List.append_cancel_left hs
  rw [← hs'] at hpp
  exact isProjectPath_no_extension q d t ht hq hpp

/-- C3 witness: with `A` containing both a manifest and a nested project
`A/B`, the scan records `A` and nothing below it. -/
theorem finder_stops_at_manifest_witness :
    [] ++ ["A"] ∈ (findProjects (.dir none [("A", .dir none [("package.json", .file),
        ("B", .dir none [("package.json", .file)])])]) []).1 ∧
    ∀ q' ∈ (findProjects (.dir none [("A", .dir none [("package.json", .file),
        ("B", .dir none [("package.json", .file)])])]) []).1,
      ∀ t, t ≠ [] → q' ≠ ([] ++ ["A"]) ++ t :=
  finder_stops_at_manifest _ [] ["A"] (by decide) (by decide)

/-- C6: a directory whose listing cannot be read yields zero projects and
exactly the warning naming it; when such a (manifest-free) directory occurs
as a child during discovery, the parent's project list is exactly that of the
tree with the failing directory removed, and the warning for the failing
directory is emitted — the scan is not aborted and other directories'
projects are unaffected. -/
theorem finder_dir_failure (ccs : List (String × FSNode)) (p : List String) (err : String)
    (cs₁ cs₂ : List (String × FSNode)) (n : String)
    (hm : existsChild ccs "package.json" = false) :
    (findProjects (.dir (some err) ccs) p).1 = [] ∧
    (findProjects (.dir (some err) ccs) p).2 = [dirWarnMsg p err] ∧
    (findProjects (.dir none (cs₁ ++ (n, .dir (some err) ccs) :: cs₂)) p).1 =
      (findProjects (.dir none (cs₁ ++ cs₂)) p).1 ∧
    dirWarnMsg (p ++ [n]) err ∈
      (findProjects (.dir none (cs₁ ++ (n, .dir (some err) ccs) :: cs₂)) p).2 := by
  refine ⟨by rw [findProjects_dirErr], by rw [findProjects_dirErr], ?_, ?_⟩
  · rw [findProjects_dirOk, findProjects_dirOk, goProjects_append, goProjects_append,
      goProjects_cons_dir, if_neg (by simp [hm]), findProjects_dirErr]
    simp
  · rw [findProjects_dirOk, goProjects_append, goProjects_cons_dir,
      if_neg (by simp [hm]), findProjects_dirErr]
    simp

/-- C6 witness: an unreadable empty child contributes zero projects and its
warning. -/
theorem finder_dir_failure_witness :
    (findProjects (.dir (some "EACCES") []) ["r"]).1 = [] ∧
    (findProjects (.dir (some "EACCES") []) ["r"]).2 = [dirWarnMsg ["r"] "EACCES"] ∧
    (findProjects (.dir none ([] ++ ("bad", .dir (some "EACCES") []) :: [])) ["r"]).1 =
      (findProjects (.dir none ([] ++ [])) ["r"]).1 ∧
    dirWarnMsg (["r"] ++ ["bad"]) "EACCES" ∈
      (findProjects (.dir none ([] ++ ("bad", .dir (some "EACCES") []) :: [])) ["r"]).2 :=
  finder_dir_failure [] ["r"] "EACCES" [] [] "bad" (by decide)

/-- C10: when the root directory itself directly contains a manifest entry,
at any position of its listing, the finder never records the root itself
(every recorded path strictly extends the root path), and the root's entries
are examined exactly as if the manifest entry were absent, so projects
nested below the root can still be returned: only strict subdirectories of
the argument are recorded. -/
theorem finder_root_excluded (cs₁ cs₂ : List (String × FSNode)) (p : List String) :
    p ∉ (findProjects (.dir none (cs₁ ++ ("package.json", FSNode.file) :: cs₂)) p).1 ∧
    (∀ q ∈ (findProjects (.dir none (cs₁ ++ ("package.json", FSNode.file) :: cs₂)) p).1,
      ∃ s, s ≠ [] ∧ q = p ++ s) ∧
    findProjects (.dir none (cs₁ ++ ("package.json", FSNode.file) :: cs₂)) p =
      findProjects (.dir none (cs₁ ++ cs₂)) p := by
  have heq : findProjects (.dir none (cs₁ ++ ("package.json", FSNode.file) :: cs₂)) p =
      findProjects (.dir none (cs₁ ++ cs₂)) p := by
    rw [findProjects_dirOk, findProjects_dirOk, goProjects_append, goProjects_append,
      goProjects_cons_file]
  refine ⟨?_, fun q hq => findProjects_result_extends _ p q hq, heq⟩
  intro hp
  obtain ⟨s, hs, heq'⟩ := findProjects_result_extends _ p p hp
  have h0 : p ++ ([] : List String) = p ++ s := by simpa using heq'
  exact hs (List.append_cancel_left h0).symm

/-- C10 witness: a root whose manifest sits between other entries still
yields the strictly nested project `A`. -/
theorem finder_root_excluded_witness :
    ∃ s, s ≠ [] ∧ ["A"] = [] ++ s :=
  (finder_root_excluded [("index.js", FSNode.file)]
    [("A", .dir none [("package.json", .file)])] []).2.1 ["A"] (by decide)

end VersionsScan
